import Mathlib

/-!
Verification of the multi-threaded AES-CTR cipher engine (cipher-ctr-mt.c).

The development shallowly embeds the data model and the operations of the
source file: counters are byte lists in network byte order (most significant
byte first), the keystream queues and the cipher context are structures
mirroring struct kq and struct ssh_aes_ctr_ctx_mt, and the stateful C
functions become explicit state-passing Lean functions.  The AES block
primitive is external to the source file (OpenSSL), so it is abstracted as a
function E from the integer value of the 16-byte big-endian counter to the
16-byte keystream block; the key schedule builder AES_set_encrypt_key is
abstracted as a function KS on the raw key bytes.  The pthread scheduling is
sequentialized: a queue fill (the body of thread_loop) is executed at the
point where the consumer waits for the queue to become full, which is sound
because the counter a queue uses for a fill is assigned deterministically at
seed time or at the end of its previous fill, and no other thread writes it
in between.
-/

namespace CipherCtrMt

/-- AES_BLOCK_SIZE from openssl/aes.h: 16 bytes. -/
def AES_BLOCK_SIZE : Nat := 16

/-- MAX_THREADS tunable (cipher-ctr-mt.c line 55). -/
def MAX_THREADS : Nat := 6

/-- MAX_NUMKQ tunable (line 56): MAX_THREADS * 4. -/
def MAX_NUMKQ : Nat := MAX_THREADS * 4

/-- KQLEN tunable (line 76): number of keystream blocks per queue. -/
def KQLEN : Nat := 8192

/-- Context state flag HAVE_NONE (line 93). -/
def HAVE_NONE : Nat := 0

/-- Context state flag HAVE_KEY (line 94). -/
def HAVE_KEY : Nat := 1

/-- Context state flag HAVE_IV (line 95). -/
def HAVE_IV : Nat := 2

/-- Keystream queue state KQINIT (enum at lines 101-107). -/
def KQINIT : Nat := 0

/-- Keystream queue state KQEMPTY. -/
def KQEMPTY : Nat := 1

/-- Keystream queue state KQFILLING. -/
def KQFILLING : Nat := 2

/-- Keystream queue state KQFULL. -/
def KQFULL : Nat := 3

/-- Keystream queue state KQDRAINING. -/
def KQDRAINING : Nat := 4

/-- All entries of a byte list are in range: each array cell is a u_char. -/
def validBytes (l : List Nat) : Prop := ∀ b ∈ l, b < 256

instance validBytes_decidable (l : List Nat) : Decidable (validBytes l) :=
  List.decidableBAll (fun b => b < 256) l

/-- Value of a least-significant-byte-first list of bytes. -/
def lsbToNat : List Nat → Nat
  | [] => 0
  | b :: bs => b + 256 * lsbToNat bs

/-- Value of a byte array in network byte order (MSB at index 0), the
representation used for counters in the source (comment at lines 141-144). -/
def toNatBE (l : List Nat) : Nat := lsbToNat l.reverse

/-- Body of ssh_ctr_inc (lines 146-154) on the reversed byte list: the C loop
walks the array from index len-1 down to 0, incrementing the byte and
stopping as soon as the incremented byte is nonzero. -/
def incLSB : List Nat → List Nat
  | [] => []
  | b :: bs => if (b + 1) % 256 = 0 then 0 :: incLSB bs else ((b + 1) % 256) :: bs

/-- ssh_ctr_inc (lines 146-154): increment a counter stored in network byte
order, propagating the carry leftward and dropping carry out of byte 0. -/
def ssh_ctr_inc (ctr : List Nat) : List Nat := (incLSB ctr.reverse).reverse

/-- Body of ssh_ctr_add (lines 159-171) on the reversed byte list, carrying
the remaining addend num (a uint32 in the source, shifted right 8 bits per
step) and the carry n (a uint16, at most 1 after the first step).  The C loop
stops when both num and n are zero, leaving the remaining bytes unchanged. -/
def addLSB (num n : Nat) : List Nat → List Nat
  | [] => []
  | b :: bs =>
    if num = 0 ∧ n = 0 then b :: bs
    else ((b + num % 256 + n) % 256) :: addLSB (num / 256) ((b + num % 256 + n) / 256) bs

/-- ssh_ctr_add (lines 159-171): add num to a counter stored in network byte
order, starting at the least significant byte. -/
def ssh_ctr_add (ctr : List Nat) (num : Nat) : List Nat := (addLSB num 0 ctr.reverse).reverse

lemma lsbToNat_lt {l : List Nat} (h : validBytes l) : lsbToNat l < 256 ^ l.length := by
  induction l with
  | nil => simp [lsbToNat]
  | cons b bs ih =>
    rw [validBytes, List.forall_mem_cons] at h
    have hb := h.1
    have hL := ih h.2
    simp only [lsbToNat, List.length_cons, pow_succ]
    omega

lemma incLSB_length (l : List Nat) : (incLSB l).length = l.length := by
  induction l with
  | nil => rfl
  | cons b bs ih =>
    simp only [incLSB]
    split <;> simp [ih]

lemma incLSB_valid {l : List Nat} (h : validBytes l) : validBytes (incLSB l) := by
  induction l with
  | nil => exact h
  | cons b bs ih =>
    rw [validBytes, List.forall_mem_cons] at h
    simp only [incLSB]
    split
    · rw [validBytes, List.forall_mem_cons]
      exact ⟨by omega, ih h.2⟩
    · rw [validBytes, List.forall_mem_cons]
      exact ⟨Nat.mod_lt _ (by omega), h.2⟩

lemma lsbToNat_incLSB {l : List Nat} (h : validBytes l) :
    lsbToNat (incLSB l) = (lsbToNat l + 1) % 256 ^ l.length := by
  induction l with
  | nil => simp [incLSB, lsbToNat]
  | cons b bs ih =>
    rw [validBytes, List.forall_mem_cons] at h
    have hb : b < 256 := h.1
    have hL : lsbToNat bs < 256 ^ bs.length := lsbToNat_lt h.2
    simp only [incLSB]
    split
    · -- the byte overflowed to zero: b = 255, carry into the tail
      have hb255 : b = 255 := by omega
      subst hb255
      simp only [lsbToNat, List.length_cons, ih h.2]
      have h1 : 255 + 256 * lsbToNat bs + 1 = 256 * (lsbToNat bs + 1) := by ring
      have h2 : (256 : Nat) ^ (bs.length + 1) = 256 * 256 ^ bs.length := by
        rw [pow_succ]; ring
      rw [h1, h2, Nat.mul_mod_mul_left]
      omega
    · -- no overflow: the byte becomes b + 1 and the tail is untouched
      have hb1 : b + 1 < 256 := by omega
      have hmod : (b + 1) % 256 = b + 1 := Nat.mod_eq_of_lt hb1
      simp only [lsbToNat, List.length_cons, hmod]
      have hlt : b + 1 + 256 * lsbToNat bs < 256 ^ (bs.length + 1) := by
        have h2 : (256 : Nat) ^ (bs.length + 1) = 256 * 256 ^ bs.length := by
          rw [pow_succ]; ring
        omega
      have : b + 256 * lsbToNat bs + 1 = b + 1 + 256 * lsbToNat bs := by ring
      rw [this, Nat.mod_eq_of_lt hlt]

lemma addLSB_length (l : List Nat) : ∀ num n, (addLSB num n l).length = l.length := by
  induction l with
  | nil => intro num n; rfl
  | cons b bs ih =>
    intro num n
    simp only [addLSB]
    split <;> simp [ih]

lemma addLSB_valid {l : List Nat} (h : validBytes l) :
    ∀ num n, validBytes (addLSB num n l) := by
  induction l with
  | nil => intro num n; exact h
  | cons b bs ih =>
    rw [validBytes, List.forall_mem_cons] at h
    intro num n
    simp only [addLSB]
    split
    · rw [validBytes, List.forall_mem_cons]; exact ⟨h.1, h.2⟩
    · rw [validBytes, List.forall_mem_cons]
      exact ⟨Nat.mod_lt _ (by omega), ih h.2 _ _⟩

lemma add_mul_mod_widen (a M P : Nat) (ha : a < 256) (hP : 0 < P) :
    (a + 256 * M) % (256 ^ 1 * P) = a + 256 * (M % P) := by
  have hM := Nat.div_add_mod M P
  have hsplit : a + 256 * M = a + 256 * (M % P) + 256 * P * (M / P) := by
    nlinarith [hM]
  rw [hsplit]
  have hpow : (256 : Nat) ^ 1 * P = 256 * P := by norm_num
  rw [hpow, Nat.add_mul_mod_self_left]
  exact Nat.mod_eq_of_lt (by have := Nat.mod_lt M hP; omega)

lemma lsbToNat_addLSB {l : List Nat} (h : validBytes l) :
    ∀ num n, lsbToNat (addLSB num n l) = (lsbToNat l + num + n) % 256 ^ l.length := by
  induction l with
  | nil => intro num n; simp [addLSB, lsbToNat, Nat.mod_one]
  | cons b bs ih =>
    rw [validBytes, List.forall_mem_cons] at h
    have hb : b < 256 := h.1
    have hL : lsbToNat bs < 256 ^ bs.length := lsbToNat_lt h.2
    intro num n
    simp only [addLSB]
    split
    · -- early exit: nothing left to add, the value fits below the modulus
      rename_i hz
      obtain ⟨h1, h2⟩ := hz
      subst h1; subst h2
      simp only [lsbToNat, List.length_cons, Nat.add_zero]
      have hlt : b + 256 * lsbToNat bs < 256 ^ (bs.length + 1) := by
        have h2 : (256 : Nat) ^ (bs.length + 1) = 256 * 256 ^ bs.length := by
          rw [pow_succ]; ring
        omega
      rw [Nat.mod_eq_of_lt hlt]
    · -- the loop body: write the low byte, recurse with num >> 8 and carry
      simp only [lsbToNat, List.length_cons, ih h.2]
      have hs := Nat.div_add_mod (b + num % 256 + n) 256
      have hn := Nat.div_add_mod num 256
      have hkey : lsbToNat bs + num / 256 + (b + num % 256 + n) / 256 =
          (b + num % 256 + n) / 256 + num / 256 + lsbToNat bs := by ring
      have hval : b + 256 * lsbToNat bs + num + n =
          (b + num % 256 + n) % 256 +
            256 * ((b + num % 256 + n) / 256 + num / 256 + lsbToNat bs) := by
        omega
      rw [hkey, hval]
      have hpow : (256 : Nat) ^ (bs.length + 1) = 256 ^ 1 * 256 ^ bs.length := by
        rw [pow_succ]; ring
      rw [hpow,
        add_mul_mod_widen _ _ _ (Nat.mod_lt _ (by omega)) (Nat.pos_pow_of_pos _ (by omega))]

lemma validBytes_reverse {l : List Nat} (h : validBytes l) : validBytes l.reverse := by
  intro b hb
  exact h b (List.mem_reverse.mp hb)

lemma ssh_ctr_inc_length (ctr : List Nat) : (ssh_ctr_inc ctr).length = ctr.length := by
  simp [ssh_ctr_inc, incLSB_length]

lemma ssh_ctr_inc_valid {ctr : List Nat} (h : validBytes ctr) :
    validBytes (ssh_ctr_inc ctr) := by
  intro b hb
  exact incLSB_valid (validBytes_reverse h) b (List.mem_reverse.mp hb)

lemma ssh_ctr_inc_val {ctr : List Nat} (h : validBytes ctr) :
    toNatBE (ssh_ctr_inc ctr) = (toNatBE ctr + 1) % 256 ^ ctr.length := by
  have := lsbToNat_incLSB (validBytes_reverse h)
  simp only [List.length_reverse] at this
  simp [toNatBE, ssh_ctr_inc, List.reverse_reverse, this]

lemma ssh_ctr_add_length (ctr : List Nat) (num : Nat) :
    (ssh_ctr_add ctr num).length = ctr.length := by
  simp [ssh_ctr_add, addLSB_length]

lemma ssh_ctr_add_valid {ctr : List Nat} (h : validBytes ctr) (num : Nat) :
    validBytes (ssh_ctr_add ctr num) := by
  intro b hb
  exact addLSB_valid (validBytes_reverse h) num 0 b (List.mem_reverse.mp hb)

lemma ssh_ctr_add_val {ctr : List Nat} (h : validBytes ctr) (num : Nat) :
    toNatBE (ssh_ctr_add ctr num) = (toNatBE ctr + num) % 256 ^ ctr.length := by
  have := lsbToNat_addLSB (validBytes_reverse h) num 0
  simp only [List.length_reverse] at this
  simp [toNatBE, ssh_ctr_add, List.reverse_reverse, this]

/-- C3: for every byte array ctr of length at least 1, ssh_ctr_inc replaces
the value of the array, read as a big-endian unsigned integer, by
(value + 1) mod 256 ^ len, keeping the length and the byte range; the carry
out of the most significant byte is silently truncated. -/
theorem ssh_ctr_inc_correct (ctr : List Nat) (hv : validBytes ctr)
    (hlen : 1 ≤ ctr.length) :
    toNatBE (ssh_ctr_inc ctr) = (toNatBE ctr + 1) % 256 ^ ctr.length ∧
    (ssh_ctr_inc ctr).length = ctr.length ∧ validBytes (ssh_ctr_inc ctr) :=
  ⟨ssh_ctr_inc_val hv, ssh_ctr_inc_length ctr, ssh_ctr_inc_valid hv⟩

theorem ssh_ctr_inc_correct_witness :
    toNatBE (ssh_ctr_inc [0, 255]) = (toNatBE [0, 255] + 1) % 256 ^ 2 ∧
    (ssh_ctr_inc [0, 255]).length = 2 ∧ validBytes (ssh_ctr_inc [0, 255]) :=
  ssh_ctr_inc_correct [0, 255] (by decide) (by decide)

/-- C4: for every byte array ctr of length at least 1 and every 32-bit value
num, ssh_ctr_add replaces the value of the array, read as a big-endian
unsigned integer, by (value + num) mod 256 ^ len, keeping the length and the
byte range; the carry past the most significant byte is silently dropped. -/
theorem ssh_ctr_add_correct (ctr : List Nat) (num : Nat) (hv : validBytes ctr)
    (hlen : 1 ≤ ctr.length) (hnum : num < 2 ^ 32) :
    toNatBE (ssh_ctr_add ctr num) = (toNatBE ctr + num) % 256 ^ ctr.length ∧
    (ssh_ctr_add ctr num).length = ctr.length ∧ validBytes (ssh_ctr_add ctr num) :=
  ⟨ssh_ctr_add_val hv num, ssh_ctr_add_length ctr num, ssh_ctr_add_valid hv num⟩

theorem ssh_ctr_add_correct_witness :
    toNatBE (ssh_ctr_add [1, 200] 1000) = (toNatBE [1, 200] + 1000) % 256 ^ 2 ∧
    (ssh_ctr_add [1, 200] 1000).length = 2 ∧ validBytes (ssh_ctr_add [1, 200] 1000) :=
  ssh_ctr_add_correct [1, 200] 1000 (by decide) (by decide) (by decide)

/-- Keystream queue, mirroring struct kq (lines 110-118): KQLEN precomputed
keystream blocks, the 16-byte counter for the next fill, and the queue state
tag.  The lock, condition variable and pad fields carry no data. -/
structure kq where
  keys : List (List Nat)
  ctr : List Nat
  qstate : Nat

/-- Cipher context, mirroring struct ssh_aes_ctr_ctx_mt (lines 121-139).
The expanded key schedule aes_key is kept as raw bytes; orig_key holds the
raw key bytes the producers read through the stored pointer; the queue array
q is modeled as a total function from the index; tid and the locks carry no
data, and the live thread pool is abstracted by the flag threads_running. -/
structure ssh_aes_ctr_ctx_mt where
  struct_id : Nat
  keylen : Nat
  state : Nat
  qidx : Nat
  ridx : Nat
  aes_key : List Nat
  orig_key : List Nat
  aes_counter : List Nat
  threads_running : Bool
  q : Nat → kq

/-- The fill loop of thread_loop (lines 295-302 and 355-358): starting from
counter ctr, produce n keystream blocks, where block i is the AES encryption
of the counter after i single increments (EVP_EncryptUpdate on a zero block
returns the raw keystream), and return the counter after the n increments.
E abstracts the external AES primitive keyed with the context key, applied
to the integer value of the 16-byte big-endian counter. -/
def gen_blocks (E : Nat → List Nat) : List Nat → Nat → List (List Nat) × List Nat
  | ctr, 0 => ([], ctr)
  | ctr, Nat.succ n =>
    let rest := gen_blocks E (ssh_ctr_inc ctr) n
    (E (toNatBE ctr) :: rest.1, rest.2)

/-- One fill pass of thread_loop on a claimed queue (lines 347-363): generate
KQLEN blocks with per-block counter increments, then jump the counter ahead
by KQLEN * (numkq - 1) so the queue is positioned for its next fill one full
ring rotation later, and mark the queue full. -/
def fill_queue (E : Nat → List Nat) (numkq : Nat) (q : kq) : kq :=
  let g := gen_blocks E q.ctr KQLEN
  { keys := g.1, ctr := ssh_ctr_add g.2 (KQLEN * (numkq - 1)), qstate := KQFULL }

/-- The startup fill of queue 0 by the first thread (lines 287-308): the same
fill pass, but the queue is handed straight to the consumer as draining. -/
def fill_queue_first (E : Nat → List Nat) (numkq : Nat) (q : kq) : kq :=
  { fill_queue E numkq q with qstate := KQDRAINING }

lemma gen_blocks_ctr (E : Nat → List Nat) (n : Nat) :
    ∀ ctr : List Nat, validBytes ctr → ctr.length = 16 →
      validBytes (gen_blocks E ctr n).2 ∧ (gen_blocks E ctr n).2.length = 16 ∧
      toNatBE (gen_blocks E ctr n).2 = (toNatBE ctr + n) % 2 ^ 128 := by
  induction n with
  | zero =>
    intro ctr hv hl
    refine ⟨hv, hl, ?_⟩
    have : toNatBE ctr < 2 ^ 128 := by
      have := lsbToNat_lt (validBytes_reverse hv)
      simp only [List.length_reverse, hl] at this
      calc toNatBE ctr < 256 ^ 16 := this
        _ = 2 ^ 128 := by norm_num
    simp only [gen_blocks, Nat.add_zero]
    exact (Nat.mod_eq_of_lt this).symm
  | succ n ih =>
    intro ctr hv hl
    have hv1 := ssh_ctr_inc_valid hv
    have hl1 : (ssh_ctr_inc ctr).length = 16 := by rw [ssh_ctr_inc_length, hl]
    obtain ⟨a, b, c⟩ := ih (ssh_ctr_inc ctr) hv1 hl1
    refine ⟨a, b, ?_⟩
    simp only [gen_blocks]
    rw [c, ssh_ctr_inc_val hv, hl]
    have h16 : (256 : Nat) ^ 16 = 2 ^ 128 := by norm_num
    rw [h16, Nat.mod_add_mod]
    omega

lemma gen_blocks_length (E : Nat → List Nat) (n : Nat) (ctr : List Nat) :
    (gen_blocks E ctr n).1.length = n := by
  induction n generalizing ctr with
  | zero => rfl
  | succ n ih => simp [gen_blocks, ih]

lemma gen_blocks_keys (E : Nat → List Nat) (n : Nat) :
    ∀ ctr : List Nat, validBytes ctr → ctr.length = 16 → ∀ r, r < n →
      (gen_blocks E ctr n).1.getD r [] = E ((toNatBE ctr + r) % 2 ^ 128) := by
  induction n with
  | zero => intro ctr _ _ r hr; omega
  | succ n ih =>
    intro ctr hv hl r hr
    cases r with
    | zero =>
      have : toNatBE ctr < 2 ^ 128 := by
        have := lsbToNat_lt (validBytes_reverse hv)
        simp only [List.length_reverse, hl] at this
        calc toNatBE ctr < 256 ^ 16 := this
          _ = 2 ^ 128 := by norm_num
      simp only [gen_blocks, List.getD_cons_zero, Nat.add_zero]
      exact congrArg E (Nat.mod_eq_of_lt this).symm
    | succ r =>
      have hv1 := ssh_ctr_inc_valid hv
      have hl1 : (ssh_ctr_inc ctr).length = 16 := by rw [ssh_ctr_inc_length, hl]
      have := ih (ssh_ctr_inc ctr) hv1 hl1 r (by omega)
      simp only [gen_blocks, List.getD_cons_succ, this]
      rw [ssh_ctr_inc_val hv, hl]
      have h16 : (256 : Nat) ^ 16 = 2 ^ 128 := by norm_num
      rw [h16, Nat.mod_add_mod]
      ring_nf

lemma fill_queue_ctr {q : kq} (E : Nat → List Nat) {numkq : Nat}
    (hv : validBytes q.ctr) (hl : q.ctr.length = 16) (h1 : 1 ≤ numkq) :
    toNatBE (fill_queue E numkq q).ctr = (toNatBE q.ctr + numkq * KQLEN) % 2 ^ 128 := by
  obtain ⟨a, b, c⟩ := gen_blocks_ctr E KQLEN q.ctr hv hl
  simp only [fill_queue]
  rw [ssh_ctr_add_val a, b, c]
  have h16 : (256 : Nat) ^ 16 = 2 ^ 128 := by norm_num
  rw [h16, Nat.mod_add_mod]
  have hK : toNatBE q.ctr + KQLEN + KQLEN * (numkq - 1) = toNatBE q.ctr + numkq * KQLEN := by
    simp only [KQLEN]
    omega
  rw [hK]

lemma fill_queue_valid {q : kq} (E : Nat → List Nat) {numkq : Nat}
    (hv : validBytes q.ctr) (hl : q.ctr.length = 16) :
    validBytes (fill_queue E numkq q).ctr ∧ (fill_queue E numkq q).ctr.length = 16 := by
  obtain ⟨a, b, _⟩ := gen_blocks_ctr E KQLEN q.ctr hv hl
  constructor
  · simp only [fill_queue]
    exact ssh_ctr_add_valid a _
  · simp only [fill_queue]
    rw [ssh_ctr_add_length]
    exact b

lemma fill_queue_keys {q : kq} (E : Nat → List Nat) {numkq : Nat}
    (hv : validBytes q.ctr) (hl : q.ctr.length = 16) :
    ∀ r, r < KQLEN →
      (fill_queue E numkq q).keys.getD r [] = E ((toNatBE q.ctr + r) % 2 ^ 128) :=
  fun r hr => gen_blocks_keys E KQLEN q.ctr hv hl r hr

/-- C2: one fill pass over a ring slot (KQLEN single increments of the
16-byte big-endian counter followed by the bulk add of KQLEN * (numkq - 1))
leaves the counter of that queue exactly numkq * KQLEN blocks ahead of the
counter the pass started with, modulo 2 ^ 128. -/
theorem fill_pass_counter_advance (E : Nat → List Nat) (numkq : Nat) (q : kq)
    (hv : validBytes q.ctr) (hl : q.ctr.length = 16) (h1 : 1 ≤ numkq)
    (h24 : numkq ≤ MAX_NUMKQ) :
    toNatBE (fill_queue E numkq q).ctr = (toNatBE q.ctr + numkq * KQLEN) % 2 ^ 128 :=
  fill_queue_ctr E hv hl h1

theorem fill_pass_counter_advance_witness :
    toNatBE (fill_queue (fun n => List.replicate 16 (n % 256)) 8
        ⟨[], List.replicate 16 0, 1⟩).ctr =
      (toNatBE (List.replicate 16 0) + 8 * KQLEN) % 2 ^ 128 :=
  fill_pass_counter_advance (fun n => List.replicate 16 (n % 256)) 8
    ⟨[], List.replicate 16 0, 1⟩ (by decide) (by decide) (by decide) (by decide)

/-- stop_and_join_pregen_threads (lines 207-232): cancel and join every
producer thread.  In the sequential embedding only the pool liveness flag
changes; no context data is touched. -/
def stop_and_join_pregen_threads (c : ssh_aes_ctr_ctx_mt) : ssh_aes_ctr_ctx_mt :=
  { c with threads_running := false }

/-- The rekey guard of ssh_aes_ctr_init (lines 566-577): when the context
already carries both key and IV, stop and join the producers and reset the
state to HAVE_NONE; otherwise the context passes through unchanged. -/
def ctx_rekey_reset (c : ssh_aes_ctr_ctx_mt) : ssh_aes_ctr_ctx_mt :=
  if c.state = (HAVE_KEY ||| HAVE_IV) then
    { stop_and_join_pregen_threads c with state := HAVE_NONE }
  else c

/-- The key installation of ssh_aes_ctr_init (lines 580-586): expand the key
schedule (AES_set_encrypt_key abstracted as KS), record the raw key pointer
and the key length in bits, and set the HAVE_KEY flag. -/
def install_key (KS : List Nat → List Nat) (c : ssh_aes_ctr_ctx_mt)
    (key : List Nat) (keylen : Nat) : ssh_aes_ctr_ctx_mt :=
  { c with aes_key := KS key, orig_key := key, keylen := keylen,
           state := c.state ||| HAVE_KEY }

/-- The IV installation of ssh_aes_ctr_init (lines 589-593): copy the IV
into the running counter and set the HAVE_IV flag. -/
def install_iv (c : ssh_aes_ctr_ctx_mt) (iv : List Nat) : ssh_aes_ctr_ctx_mt :=
  { c with aes_counter := iv, state := c.state ||| HAVE_IV }

/-- The ring seeding of ssh_aes_ctr_init (lines 595-609): queue 0 gets the
current counter and the INIT state, every other queue i below numkq gets the
counter plus i * KQLEN and the EMPTY state, and the consumer indices are
reset to zero. -/
def seed_queues (c : ssh_aes_ctr_ctx_mt) (numkq : Nat) : ssh_aes_ctr_ctx_mt :=
  { c with
    q := fun i =>
      if i = 0 then { c.q 0 with ctr := c.aes_counter, qstate := KQINIT }
      else if i < numkq then
        { c.q i with ctr := ssh_ctr_add c.aes_counter (i * KQLEN), qstate := KQEMPTY }
      else c.q i,
    qidx := 0,
    ridx := 0 }

/-- The startup duty of the first spawned thread (lines 287-308): if queue 0
is in the INIT state, fill it and hand it to the consumer as draining.  The
wait at lines 624-628 blocks init until this has happened. -/
def first_thread_fill (E : Nat → List Nat) (numkq : Nat)
    (c : ssh_aes_ctr_ctx_mt) : ssh_aes_ctr_ctx_mt :=
  if (c.q 0).qstate = KQINIT then
    { c with q := fun i => if i = 0 then fill_queue_first E numkq (c.q 0) else c.q i }
  else c

/-- Thread spawning (lines 611-628): mark the pool live and perform the
startup fill of queue 0 that init waits for before returning. -/
def start_threads (E : Nat → List Nat) (numkq : Nat)
    (c : ssh_aes_ctr_ctx_mt) : ssh_aes_ctr_ctx_mt :=
  first_thread_fill E numkq { c with threads_running := true }

/-- The key-length dispatch of thread_loop (lines 271-280): the producer
builds its cipher handle for a 256, 128 or 192 bit key and otherwise calls
exit(1), taking the whole process down. -/
def thread_keylen_ok (keylen : Nat) : Prop :=
  keylen = 256 ∨ keylen = 128 ∨ keylen = 192

instance thread_keylen_ok_decidable (keylen : Nat) : Decidable (thread_keylen_ok keylen) := by
  unfold thread_keylen_ok
  infer_instance

/-- ssh_aes_ctr_init (lines 472-631) after the context exists and the pool
has been sized: the rekey guard, the key and IV installation, and, once both
are present, the ring seeding followed by the thread start.  The error case
models the fatal exit(1) of thread_loop on an unsupported key length: init
blocks at lines 624-628 until the first producer fills queue 0, and with an
unsupported key length that producer terminates the process instead, so init
never reports success. -/
def ssh_aes_ctr_init (E : Nat → List Nat) (KS : List Nat → List Nat)
    (numkq : Nat) (c : ssh_aes_ctr_ctx_mt) (key : Option (List Nat))
    (keylen : Nat) (iv : Option (List Nat)) : Except Unit ssh_aes_ctr_ctx_mt :=
  let c1 := ctx_rekey_reset c
  let c2 := match key with
    | some k => install_key KS c1 k keylen
    | none => c1
  let c3 := match iv with
    | some v => install_iv c2 v
    | none => c2
  if c3.state = (HAVE_KEY ||| HAVE_IV) then
    if thread_keylen_ok c3.keylen then
      Except.ok (start_threads E numkq (seed_queues c3 numkq))
    else
      Except.error ()
  else Except.ok c3

lemma state_lor_both {s : Nat} (h : s < 4) : s ||| HAVE_KEY ||| HAVE_IV = HAVE_KEY ||| HAVE_IV := by
  have : s = 0 ∨ s = 1 ∨ s = 2 ∨ s = 3 := by omega
  rcases this with h0 | h0 | h0 | h0 <;> subst h0 <;> decide

lemma ctx_rekey_reset_state {c : ssh_aes_ctr_ctx_mt} (h : c.state < 4) :
    (ctx_rekey_reset c).state < 4 := by
  unfold ctx_rekey_reset
  split
  · simp [stop_and_join_pregen_threads, HAVE_NONE]
  · exact h

lemma init_unfold (E : Nat → List Nat) (KS : List Nat → List Nat)
    (numkq : Nat) (c : ssh_aes_ctr_ctx_mt) (k : List Nat) (keylen : Nat)
    (v : List Nat) (hstate : c.state < 4) :
    ssh_aes_ctr_init E KS numkq c (some k) keylen (some v) =
      if thread_keylen_ok keylen then
        Except.ok (start_threads E numkq
          (seed_queues (install_iv (install_key KS (ctx_rekey_reset c) k keylen) v) numkq))
      else Except.error () := by
  unfold ssh_aes_ctr_init
  have h1 : (ctx_rekey_reset c).state < 4 := ctx_rekey_reset_state hstate
  have hs : (install_iv (install_key KS (ctx_rekey_reset c) k keylen) v).state =
      HAVE_KEY ||| HAVE_IV := by
    simp only [install_iv, install_key]
    exact state_lor_both h1
  have hkl : (install_iv (install_key KS (ctx_rekey_reset c) k keylen) v).keylen = keylen := by
    simp [install_iv, install_key]
  simp only [hs, hkl, if_pos rfl]
  simp

/-- C5: when init observes that both key and IV are present it seeds the
ring before spawning the producers: queue 0 gets the IV itself and the INIT
state, queue i for 1 <= i < numkq gets IV + i * KQLEN (big-endian, modulo
2 ^ 128) and the EMPTY state, and the consumer queue and read indices are
reset to zero; init then hands exactly this seeded context to the thread
start. -/
theorem init_seeds_ring (E : Nat → List Nat) (KS : List Nat → List Nat)
    (numkq : Nat) (c : ssh_aes_ctr_ctx_mt) (k : List Nat) (keylen : Nat)
    (v : List Nat) (hstate : c.state < 4) (hkl : thread_keylen_ok keylen)
    (hv : validBytes v) (hl : v.length = 16) (h1 : 1 ≤ numkq)
    (h24 : numkq ≤ MAX_NUMKQ) :
    ∃ s, ssh_aes_ctr_init E KS numkq c (some k) keylen (some v) =
        Except.ok (start_threads E numkq s) ∧
      s = seed_queues (install_iv (install_key KS (ctx_rekey_reset c) k keylen) v) numkq ∧
      s.qidx = 0 ∧ s.ridx = 0 ∧
      (s.q 0).ctr = v ∧ (s.q 0).qstate = KQINIT ∧
      ∀ i, 1 ≤ i → i < numkq → (s.q i).qstate = KQEMPTY ∧
        toNatBE (s.q i).ctr = (toNatBE v + i * KQLEN) % 2 ^ 128 := by
  refine ⟨seed_queues (install_iv (install_key KS (ctx_rekey_reset c) k keylen) v) numkq,
    ?_, rfl, rfl, rfl, ?_, ?_, ?_⟩
  · rw [init_unfold E KS numkq c k keylen v hstate, if_pos hkl]
  · simp [seed_queues, install_iv]
  · simp [seed_queues]
  · intro i hi1 hi2
    have hne : ¬ i = 0 := by omega
    constructor
    · simp [seed_queues, hne, hi2]
    · have hctr : (seed_queues (install_iv (install_key KS (ctx_rekey_reset c) k keylen) v)
          numkq).q i = { (install_iv (install_key KS (ctx_rekey_reset c) k keylen) v).q i with
            ctr := ssh_ctr_add v (i * KQLEN), qstate := KQEMPTY } := by
        simp [seed_queues, hne, hi2, install_iv]
      rw [hctr]
      have := ssh_ctr_add_val hv (i * KQLEN)
      rw [hl] at this
      simpa using this

theorem init_seeds_ring_witness :
    ∃ s, ssh_aes_ctr_init (fun _ => []) (fun _ => []) 8
        ⟨0, 0, 0, 0, 0, [], [], [], false, fun _ => ⟨[], [], 0⟩⟩
        (some [5]) 128 (some (List.replicate 16 0)) =
        Except.ok (start_threads (fun _ => []) 8 s) ∧
      s = seed_queues (install_iv (install_key (fun _ => [])
        (ctx_rekey_reset ⟨0, 0, 0, 0, 0, [], [], [], false, fun _ => ⟨[], [], 0⟩⟩)
        [5] 128) (List.replicate 16 0)) 8 ∧
      s.qidx = 0 ∧ s.ridx = 0 ∧
      (s.q 0).ctr = List.replicate 16 0 ∧ (s.q 0).qstate = KQINIT ∧
      ∀ i, 1 ≤ i → i < 8 → (s.q i).qstate = KQEMPTY ∧
        toNatBE (s.q i).ctr = (toNatBE (List.replicate 16 0) + i * KQLEN) % 2 ^ 128 :=
  init_seeds_ring (fun _ => []) (fun _ => []) 8
    ⟨0, 0, 0, 0, 0, [], [], [], false, fun _ => ⟨[], [], 0⟩⟩
    [5] 128 (List.replicate 16 0) (by decide) (by decide) (by decide) (by decide)
    (by decide) (by decide)

/-- C6: invoking init on a context whose state flag records both key and IV
performs a rekey rather than an error: the producers are stopped and joined
first, the state is reset to HAVE_NONE before the new key and IV are
installed, and only then is the ring reseeded and the pool restarted. -/
theorem init_rekeys (E : Nat → List Nat) (KS : List Nat → List Nat)
    (numkq : Nat) (c : ssh_aes_ctr_ctx_mt) (k : List Nat) (keylen : Nat)
    (v : List Nat) (hstate : c.state = (HAVE_KEY ||| HAVE_IV))
    (hkl : thread_keylen_ok keylen) :
    ({ stop_and_join_pregen_threads c with state := HAVE_NONE }).threads_running = false ∧
    ({ stop_and_join_pregen_threads c with state := HAVE_NONE }).state = HAVE_NONE ∧
    ssh_aes_ctr_init E KS numkq c (some k) keylen (some v) =
      Except.ok (start_threads E numkq (seed_queues (install_iv (install_key KS
        { stop_and_join_pregen_threads c with state := HAVE_NONE } k keylen) v) numkq)) ∧
    (start_threads E numkq (seed_queues (install_iv (install_key KS
      { stop_and_join_pregen_threads c with state := HAVE_NONE } k keylen) v)
        numkq)).threads_running = true := by
  have hreset : ctx_rekey_reset c = { stop_and_join_pregen_threads c with state := HAVE_NONE } := by
    unfold ctx_rekey_reset
    rw [if_pos hstate]
  have hlt : c.state < 4 := by rw [hstate]; decide
  refine ⟨rfl, rfl, ?_, ?_⟩
  · rw [init_unfold E KS numkq c k keylen v hlt, if_pos hkl, hreset]
  · unfold start_threads first_thread_fill
    split <;> rfl

theorem init_rekeys_witness :
    ({ stop_and_join_pregen_threads
        ⟨0, 128, 3, 0, 0, [], [9], [], true, fun _ => ⟨[], [], 0⟩⟩ with
        state := HAVE_NONE }).threads_running = false ∧
    ({ stop_and_join_pregen_threads
        ⟨0, 128, 3, 0, 0, [], [9], [], true, fun _ => ⟨[], [], 0⟩⟩ with
        state := HAVE_NONE }).state = HAVE_NONE ∧
    ssh_aes_ctr_init (fun _ => []) (fun _ => []) 8
      ⟨0, 128, 3, 0, 0, [], [9], [], true, fun _ => ⟨[], [], 0⟩⟩
      (some [5]) 256 (some (List.replicate 16 1)) =
      Except.ok (start_threads (fun _ => []) 8 (seed_queues (install_iv (install_key (fun _ => [])
        { stop_and_join_pregen_threads
            ⟨0, 128, 3, 0, 0, [], [9], [], true, fun _ => ⟨[], [], 0⟩⟩ with
          state := HAVE_NONE } [5] 256) (List.replicate 16 1)) 8)) ∧
    (start_threads (fun _ => []) 8 (seed_queues (install_iv (install_key (fun _ => [])
      { stop_and_join_pregen_threads
          ⟨0, 128, 3, 0, 0, [], [9], [], true, fun _ => ⟨[], [], 0⟩⟩ with
        state := HAVE_NONE } [5] 256) (List.replicate 16 1)) 8)).threads_running = true :=
  init_rekeys (fun _ => []) (fun _ => []) 8
    ⟨0, 128, 3, 0, 0, [], [9], [], true, fun _ => ⟨[], [], 0⟩⟩
    [5] 256 (List.replicate 16 1) (by decide) (by decide)

/-- C9: for a key length outside the supported sizes 128, 192 and 256 bits,
init does not report success: the producer key-length dispatch kills the
process (exit(1) at line 279) while init is still blocked waiting for queue
0 to be filled, so cipher construction aborts and no context reaches the
caller. -/
theorem init_rejects_bad_keylen (E : Nat → List Nat) (KS : List Nat → List Nat)
    (numkq : Nat) (c : ssh_aes_ctr_ctx_mt) (k : List Nat) (keylen : Nat)
    (v : List Nat) (hstate : c.state < 4) (hkl : ¬ thread_keylen_ok keylen) :
    ssh_aes_ctr_init E KS numkq c (some k) keylen (some v) = Except.error () := by
  rw [init_unfold E KS numkq c k keylen v hstate, if_neg hkl]

theorem init_rejects_bad_keylen_witness :
    ssh_aes_ctr_init (fun _ => []) (fun _ => []) 8
      ⟨0, 0, 0, 0, 0, [], [], [], false, fun _ => ⟨[], [], 0⟩⟩
      (some [5]) 100 (some (List.replicate 16 0)) = Except.error () :=
  init_rejects_bad_keylen (fun _ => []) (fun _ => []) 8
    ⟨0, 0, 0, 0, 0, [], [], [], false, fun _ => ⟨[], [], 0⟩⟩
    [5] 100 (List.replicate 16 0) (by decide) (by decide)

/-- memset(c, 0, sizeof(*c)) at line 641: every byte inside the context
struct becomes zero — the scalar fields, the inline expanded key schedule,
the inline counter, and every queue (its keystream blocks, its counter and
its state tag, KQINIT being the all-zero enum value).  The orig_key field is
a pointer; zeroing the struct nulls the pointer but cannot touch the
caller-owned buffer it referenced, which lies outside sizeof(*c). -/
def memset_zero (c : ssh_aes_ctr_ctx_mt) : ssh_aes_ctr_ctx_mt :=
  { struct_id := 0, keylen := 0, state := 0, qidx := 0, ridx := 0,
    aes_key := List.replicate c.aes_key.length 0,
    orig_key := [],
    aes_counter := List.replicate c.aes_counter.length 0,
    threads_running := false,
    q := fun _ =>
      { keys := List.replicate KQLEN (List.replicate AES_BLOCK_SIZE 0),
        ctr := List.replicate AES_BLOCK_SIZE 0,
        qstate := 0 } }

/-- Observable outcome of ssh_aes_ctr_cleanup: the EVP app-data slot after
the call, the contents of the context memory at the moment it is released
(none when nothing was attached, so nothing is freed), the caller-owned key
buffer that orig_key referenced, and the return code. -/
structure CleanupResult where
  app_data : Option ssh_aes_ctr_ctx_mt
  freed : Option ssh_aes_ctr_ctx_mt
  key_buf : List Nat
  ret : Nat

/-- ssh_aes_ctr_cleanup (lines 633-646): when a context is attached, stop
and join the producers, zero the whole struct, free it and detach the
app-data pointer; when no context is attached, do nothing.  Either way the
function returns 1.  key_buf is the caller-owned buffer referenced by
orig_key; the function never writes to it. -/
def ssh_aes_ctr_cleanup (app : Option ssh_aes_ctr_ctx_mt)
    (key_buf : List Nat) : CleanupResult :=
  match app with
  | some c =>
    { app_data := none,
      freed := some (memset_zero (stop_and_join_pregen_threads c)),
      key_buf := key_buf, ret := 1 }
  | none => { app_data := none, freed := none, key_buf := key_buf, ret := 1 }

/-- C7: cleanup returns success for every input; on a context with nothing
attached it is a no-op (nothing is freed) that still returns success; and
because the first call detaches the app-data pointer, a second cleanup on
the same context frees nothing and still returns success — no double free. -/
theorem cleanup_always_succeeds_and_idempotent
    (app : Option ssh_aes_ctr_ctx_mt) (kb : List Nat) :
    (ssh_aes_ctr_cleanup app kb).ret = 1 ∧
    (ssh_aes_ctr_cleanup app kb).app_data = none ∧
    (ssh_aes_ctr_cleanup none kb).freed = none ∧
    (ssh_aes_ctr_cleanup none kb).ret = 1 ∧
    (ssh_aes_ctr_cleanup (ssh_aes_ctr_cleanup app kb).app_data kb).freed = none ∧
    (ssh_aes_ctr_cleanup (ssh_aes_ctr_cleanup app kb).app_data kb).ret = 1 := by
  cases app <;> simp [ssh_aes_ctr_cleanup]

/-- C8 counterexample: the claim states that the raw key bytes in the buffer
referenced by the orig_key pointer are zeroed by cleanup.  They are not: the
memset at line 641 covers only sizeof(*c) bytes, so only the pointer field
itself is cleared.  On a context whose orig_key references a buffer holding
the nonzero byte 171, the buffer still holds 171 after cleanup. -/
theorem cleanup_leaves_key_buffer_counterexample :
    (ssh_aes_ctr_cleanup
        (some ⟨0, 128, 3, 0, 0, [7], [171], List.replicate 16 0, true,
          fun _ => ⟨[], [], 0⟩⟩) [171]).key_buf = [171] ∧ (171 : Nat) ≠ 0 :=
  ⟨rfl, by decide⟩

/-- C8 amended: cleanup stops and joins the producers and then zeroes, not
merely frees, every byte of sensitive state stored inside the context
struct — the expanded key schedule, the running counter, and every queue
keystream block, queue counter and queue state — and nulls the stored
orig_key pointer; but the caller-owned raw key buffer that orig_key
referenced lies outside the struct and is left unchanged, not zeroed. -/
theorem cleanup_wipes_context (c : ssh_aes_ctr_ctx_mt) (kb : List Nat) :
    ∃ fc, (ssh_aes_ctr_cleanup (some c) kb).freed = some fc ∧
      fc = memset_zero (stop_and_join_pregen_threads c) ∧
      fc.threads_running = false ∧
      (∀ b ∈ fc.aes_key, b = 0) ∧
      (∀ b ∈ fc.aes_counter, b = 0) ∧
      (∀ i, (∀ b ∈ (fc.q i).ctr, b = 0) ∧
        (∀ blk ∈ (fc.q i).keys, ∀ b ∈ blk, b = 0) ∧ (fc.q i).qstate = 0) ∧
      fc.orig_key = [] ∧
      (ssh_aes_ctr_cleanup (some c) kb).key_buf = kb ∧
      (ssh_aes_ctr_cleanup (some c) kb).app_data = none := by
  refine ⟨memset_zero (stop_and_join_pregen_threads c), rfl, rfl, rfl, ?_, ?_, ?_, rfl, rfl, rfl⟩
  · intro b hb
    exact List.eq_of_mem_replicate hb
  · intro b hb
    exact List.eq_of_mem_replicate hb
  · intro i
    refine ⟨fun b hb => List.eq_of_mem_replicate hb, ?_, rfl⟩
    intro blk hblk b hb
    have := List.eq_of_mem_replicate hblk
    subst this
    exact List.eq_of_mem_replicate hb

/-- The keystream block the consumer XORs against the current source block
(line 406): keys[ridx] of the queue at qidx. -/
def keystream_block (c : ssh_aes_ctr_ctx_mt) : List Nat :=
  (c.q c.qidx).keys.getD c.ridx []

/-- The per-block index advance of ssh_aes_ctr (lines 446-466): increment
the read index modulo KQLEN; on rollover move to the next queue, wait until
it is full (in the sequential embedding the pending producer fill runs here
when the queue is not yet full, using the counter that queue already
carries), mark it draining, and mark the just-drained queue empty. -/
def ctr_step (E : Nat → List Nat) (numkq : Nat)
    (c : ssh_aes_ctr_ctx_mt) : ssh_aes_ctr_ctx_mt :=
  if (c.ridx + 1) % KQLEN = 0 then
    { c with
      ridx := 0
      qidx := (c.qidx + 1) % numkq
      q := fun i =>
        if i = c.qidx then { c.q c.qidx with qstate := KQEMPTY }
        else if i = (c.qidx + 1) % numkq then
          if (c.q ((c.qidx + 1) % numkq)).qstate = KQFULL
          then { c.q ((c.qidx + 1) % numkq) with qstate := KQDRAINING }
          else { fill_queue E numkq (c.q ((c.qidx + 1) % numkq)) with qstate := KQDRAINING }
        else c.q i }
  else { c with ridx := (c.ridx + 1) % KQLEN }

/-- ssh_aes_ctr (lines 373-470) on a source already split into 16-byte
blocks: XOR each source block against the next keystream block, advancing
the consumer indices per block; a zero-length request returns the context
unchanged. -/
def ssh_aes_ctr (E : Nat → List Nat) (numkq : Nat) :
    ssh_aes_ctr_ctx_mt → List (List Nat) → List (List Nat) × ssh_aes_ctr_ctx_mt
  | c, [] => ([], c)
  | c, s :: rest =>
    let r := ssh_aes_ctr E numkq (ctr_step E numkq c) rest
    (List.zipWith Nat.xor s (keystream_block c) :: r.1, r.2)

/-- Reference single-threaded CTR encryption, modelled on the specification
wording: block k of the output is the source block XORed with
AES_encrypt(key, IV + k), the IV being treated as a 16-byte big-endian
counter with wraparound at 2 ^ 128. -/
def serial_ctr_ref (E : Nat → List Nat) (v : Nat) : List (List Nat) → List (List Nat)
  | [] => []
  | s :: rest => List.zipWith Nat.xor s (E (v % 2 ^ 128)) :: serial_ctr_ref E (v + 1) rest

lemma KQLEN_pos : 0 < KQLEN := by decide

lemma ctr_step_ridx (E : Nat → List Nat) (numkq : Nat) (c : ssh_aes_ctr_ctx_mt) :
    (ctr_step E numkq c).ridx = (c.ridx + 1) % KQLEN := by
  by_cases h : (c.ridx + 1) % KQLEN = 0 <;> simp [ctr_step, h]

lemma ctr_step_qidx (E : Nat → List Nat) (numkq : Nat) (c : ssh_aes_ctr_ctx_mt) :
    (ctr_step E numkq c).qidx =
      if (c.ridx + 1) % KQLEN = 0 then (c.qidx + 1) % numkq else c.qidx := by
  by_cases h : (c.ridx + 1) % KQLEN = 0 <;> simp [ctr_step, h]

lemma ssh_aes_ctr_index_formula (E : Nat → List Nat) (numkq : Nat)
    (h1 : 1 ≤ numkq) :
    ∀ (srcs : List (List Nat)) (c : ssh_aes_ctr_ctx_mt),
      c.ridx < KQLEN → c.qidx < numkq →
      (ssh_aes_ctr E numkq c srcs).2.ridx = (c.ridx + srcs.length) % KQLEN ∧
      (ssh_aes_ctr E numkq c srcs).2.qidx =
        (c.qidx + (c.ridx + srcs.length) / KQLEN) % numkq := by
  intro srcs
  induction srcs with
  | nil =>
    intro c hr hq
    constructor
    · simp only [ssh_aes_ctr, List.length_nil, Nat.add_zero]
      exact (Nat.mod_eq_of_lt hr).symm
    · simp only [ssh_aes_ctr, List.length_nil, Nat.add_zero]
      rw [Nat.div_eq_of_lt hr]
      exact (by rw [Nat.add_zero, Nat.mod_eq_of_lt hq])
  | cons s rest ih =>
    intro c hr hq
    have hr1 : (ctr_step E numkq c).ridx < KQLEN := by
      rw [ctr_step_ridx]
      exact Nat.mod_lt _ KQLEN_pos
    have hq1 : (ctr_step E numkq c).qidx < numkq := by
      rw [ctr_step_qidx]
      by_cases h : (c.ridx + 1) % KQLEN = 0
      · rw [if_pos h]
        exact Nat.mod_lt _ (by omega)
      · rw [if_neg h]
        exact hq
    obtain ⟨ihr, ihq⟩ := ih (ctr_step E numkq c) hr1 hq1
    constructor
    · simp only [ssh_aes_ctr]
      rw [ihr, ctr_step_ridx, Nat.mod_add_mod, List.length_cons]
      congr 1
      omega
    · simp only [ssh_aes_ctr]
      rw [ihq, ctr_step_ridx, ctr_step_qidx, List.length_cons]
      by_cases h : (c.ridx + 1) % KQLEN = 0
      · rw [if_pos h]
        have hfull : c.ridx + 1 = KQLEN := by
          rcases Nat.lt_or_ge (c.ridx + 1) KQLEN with hlt | hge
          · rw [Nat.mod_eq_of_lt hlt] at h
            omega
          · omega
        rw [h, Nat.mod_add_mod, Nat.zero_add]
        have harith : c.ridx + (rest.length + 1) = rest.length + KQLEN := by omega
        rw [harith, Nat.add_div_right _ KQLEN_pos]
        have harith2 : c.qidx + 1 + rest.length / KQLEN =
            c.qidx + (rest.length / KQLEN + 1) := by omega
        rw [harith2]
      · rw [if_neg h]
        have hlt : c.ridx + 1 < KQLEN := by
          rcases Nat.lt_or_ge (c.ridx + 1) KQLEN with hlt | hge
          · exact hlt
          · have : c.ridx + 1 = KQLEN := by omega
            rw [this, Nat.mod_self] at h
            omega
        rw [Nat.mod_eq_of_lt hlt]
        have harith : c.ridx + 1 + rest.length = c.ridx + (rest.length + 1) := by omega
        rw [harith]

/-- C10: the transform preserves the consumer-index invariant.  For every
context with ridx below KQLEN and qidx below numkq, after processing m
blocks the read index equals (ridx + m) mod KQLEN, the queue index has
advanced by exactly the number of queue rollovers (ridx + m) / KQLEN modulo
numkq, and both indices are again within bounds. -/
theorem ssh_aes_ctr_index_invariant (E : Nat → List Nat) (numkq : Nat)
    (c : ssh_aes_ctr_ctx_mt) (srcs : List (List Nat)) (h1 : 1 ≤ numkq)
    (hr : c.ridx < KQLEN) (hq : c.qidx < numkq) :
    (ssh_aes_ctr E numkq c srcs).2.ridx = (c.ridx + srcs.length) % KQLEN ∧
    (ssh_aes_ctr E numkq c srcs).2.qidx =
      (c.qidx + (c.ridx + srcs.length) / KQLEN) % numkq ∧
    (ssh_aes_ctr E numkq c srcs).2.ridx < KQLEN ∧
    (ssh_aes_ctr E numkq c srcs).2.qidx < numkq := by
  obtain ⟨h3, h4⟩ := ssh_aes_ctr_index_formula E numkq h1 srcs c hr hq
  refine ⟨h3, h4, ?_, ?_⟩
  · rw [h3]
    exact Nat.mod_lt _ KQLEN_pos
  · rw [h4]
    exact Nat.mod_lt _ (by omega)

theorem ssh_aes_ctr_index_invariant_witness :
    (ssh_aes_ctr (fun _ => []) 8
        ⟨0, 128, 3, 0, 5, [], [], [], true, fun _ => ⟨[], [], 0⟩⟩
        [List.replicate 16 0, List.replicate 16 1]).2.ridx = (5 + 2) % KQLEN ∧
    (ssh_aes_ctr (fun _ => []) 8
        ⟨0, 128, 3, 0, 5, [], [], [], true, fun _ => ⟨[], [], 0⟩⟩
        [List.replicate 16 0, List.replicate 16 1]).2.qidx = (0 + (5 + 2) / KQLEN) % 8 ∧
    (ssh_aes_ctr (fun _ => []) 8
        ⟨0, 128, 3, 0, 5, [], [], [], true, fun _ => ⟨[], [], 0⟩⟩
        [List.replicate 16 0, List.replicate 16 1]).2.ridx < KQLEN ∧
    (ssh_aes_ctr (fun _ => []) 8
        ⟨0, 128, 3, 0, 5, [], [], [], true, fun _ => ⟨[], [], 0⟩⟩
        [List.replicate 16 0, List.replicate 16 1]).2.qidx < 8 :=
  ssh_aes_ctr_index_invariant (fun _ => []) 8
    ⟨0, 128, 3, 0, 5, [], [], [], true, fun _ => ⟨[], [], 0⟩⟩
    [List.replicate 16 0, List.replicate 16 1] (by decide) (by decide) (by decide)

/-- Rotation distance bookkeeping for the equivalence proof: with the
consumer currently draining fill number cur, dist cur numkq i is how many
fills ahead queue i's stored counter points — numkq for the queue being
drained (its counter was already advanced a full rotation by its fill), and
the forward rotation distance for every other queue. -/
def dist (cur numkq i : Nat) : Nat :=
  if i = cur % numkq then numkq else (numkq + i - cur % numkq) % numkq

lemma mod_shift_eq {numkq i a : Nat} (hi : i < numkq) (ha : a < numkq) :
    (numkq + i - a) % numkq = if a ≤ i then i - a else numkq + i - a := by
  split
  · rename_i h
    have h1 : numkq + i - a = numkq + (i - a) := by omega
    rw [h1, Nat.add_mod_left]
    exact Nat.mod_eq_of_lt (by omega)
  · exact Nat.mod_eq_of_lt (by omega)

lemma dist_self {cur numkq : Nat} : dist cur numkq (cur % numkq) = numkq := by
  simp [dist]

lemma succ_mod_ne {a n : Nat} (h2 : 2 ≤ n) (ha : a < n) : (a + 1) % n ≠ a := by
  rcases Nat.lt_or_ge (a + 1) n with hlt | hge
  · rw [Nat.mod_eq_of_lt hlt]
    omega
  · have he : a + 1 = n := by omega
    rw [he, Nat.mod_self]
    omega

lemma dist_next {cur numkq : Nat} (h2 : 2 ≤ numkq) :
    dist cur numkq ((cur % numkq + 1) % numkq) = 1 := by
  have ha : cur % numkq < numkq := Nat.mod_lt _ (by omega)
  have hne := succ_mod_ne h2 ha
  unfold dist
  rw [if_neg hne]
  rcases Nat.lt_or_ge (cur % numkq + 1) numkq with hlt | hge
  · rw [Nat.mod_eq_of_lt hlt, mod_shift_eq hlt ha, if_pos (by omega)]
    omega
  · have he : cur % numkq + 1 = numkq := by omega
    rw [he, Nat.mod_self, mod_shift_eq (by omega : 0 < numkq) ha, if_neg (by omega)]
    omega

lemma succ_mod_shift {cur numkq : Nat} (h2 : 2 ≤ numkq) :
    (cur + 1) % numkq = (cur % numkq + 1) % numkq := by
  conv_lhs => rw [Nat.add_mod]
  rw [Nat.mod_eq_of_lt (show (1 : Nat) < numkq by omega)]

lemma dist_old {cur numkq : Nat} (h2 : 2 ≤ numkq) :
    dist (cur + 1) numkq (cur % numkq) = numkq - 1 := by
  have ha : cur % numkq < numkq := Nat.mod_lt _ (by omega)
  have ha' := @succ_mod_shift cur numkq h2
  unfold dist
  have hne : ¬ (cur % numkq = (cur + 1) % numkq) := by
    rw [ha']
    intro h
    exact succ_mod_ne h2 ha h.symm
  rw [if_neg hne, ha']
  rcases Nat.lt_or_ge (cur % numkq + 1) numkq with hlt | hge
  · rw [Nat.mod_eq_of_lt hlt, mod_shift_eq ha hlt, if_neg (by omega)]
    omega
  · have he : cur % numkq + 1 = numkq := by omega
    rw [he, Nat.mod_self, Nat.sub_zero, Nat.add_mod_left, Nat.mod_eq_of_lt ha]
    omega

lemma dist_other {cur numkq i : Nat} (h2 : 2 ≤ numkq) (hi : i < numkq)
    (hne : i ≠ cur % numkq) (hne2 : i ≠ (cur % numkq + 1) % numkq) :
    dist cur numkq i = dist (cur + 1) numkq i + 1 := by
  have ha : cur % numkq < numkq := Nat.mod_lt _ (by omega)
  have ha' := @succ_mod_shift cur numkq h2
  unfold dist
  rw [if_neg hne, ha', if_neg hne2]
  rcases Nat.lt_or_ge (cur % numkq + 1) numkq with hlt | hge
  · rw [Nat.mod_eq_of_lt hlt] at hne2 ⊢
    rw [mod_shift_eq hi ha, mod_shift_eq hi hlt]
    rcases Nat.lt_or_ge i (cur % numkq) with hia | hia
    · rw [if_neg (by omega), if_neg (by omega)]
      omega
    · rw [if_pos (by omega), if_pos (by omega)]
      omega
  · have he : cur % numkq + 1 = numkq := by omega
    rw [he, Nat.mod_self] at hne2 ⊢
    rw [mod_shift_eq hi ha, mod_shift_eq hi (by omega : 0 < numkq)]
    rw [if_neg (by omega), if_pos (by omega)]
    omega

/-- The consumer-side invariant tying the ring state after j consumed
blocks to the serial keystream: the indices point at block j, the queue
being drained holds the keystream blocks for fill j / KQLEN, and every
queue's stored counter is exactly dist fills ahead, all modulo 2 ^ 128
over the IV value v. -/
structure CtrInv (E : Nat → List Nat) (numkq v j : Nat)
    (c : ssh_aes_ctr_ctx_mt) : Prop where
  hqidx : c.qidx = j / KQLEN % numkq
  hridx : c.ridx = j % KQLEN
  hvalid : ∀ i, i < numkq → validBytes (c.q i).ctr ∧ (c.q i).ctr.length = 16
  hctr : ∀ i, i < numkq →
    toNatBE (c.q i).ctr = (v + KQLEN * (j / KQLEN + dist (j / KQLEN) numkq i)) % 2 ^ 128
  hkeys : ∀ r, r < KQLEN →
    (c.q c.qidx).keys.getD r [] = E ((v + KQLEN * (j / KQLEN) + r) % 2 ^ 128)
  hempty : ∀ i, i < numkq → i ≠ c.qidx → (c.q i).qstate = KQEMPTY

lemma keystream_block_inv {E : Nat → List Nat} {numkq v j : Nat}
    {c : ssh_aes_ctr_ctx_mt} (hinv : CtrInv E numkq v j c) :
    keystream_block c = E ((v + j) % 2 ^ 128) := by
  unfold keystream_block
  rw [hinv.hridx, hinv.hkeys (j % KQLEN) (Nat.mod_lt _ KQLEN_pos)]
  congr 1
  rw [Nat.add_assoc, Nat.div_add_mod]

lemma succ_div_of_not_roll {j : Nat} (h : (j + 1) % KQLEN ≠ 0) :
    (j + 1) / KQLEN = j / KQLEN := by
  rw [Nat.succ_div, if_neg, Nat.add_zero]
  intro hdvd
  exact h (Nat.mod_eq_zero_of_dvd hdvd)

lemma succ_div_of_roll {j : Nat} (h : (j + 1) % KQLEN = 0) :
    (j + 1) / KQLEN = j / KQLEN + 1 := by
  rw [Nat.succ_div, if_pos (Nat.dvd_of_mod_eq_zero h)]

lemma inv_step_noroll {E : Nat → List Nat} {numkq v j : Nat}
    {c : ssh_aes_ctr_ctx_mt} (hK : (j + 1) % KQLEN ≠ 0)
    (hinv : CtrInv E numkq v j c) :
    CtrInv E numkq v (j + 1) (ctr_step E numkq c) := by
  have hcond : ¬ ((c.ridx + 1) % KQLEN = 0) := by
    rw [hinv.hridx, Nat.mod_add_mod]
    exact hK
  have hstep : ctr_step E numkq c = { c with ridx := (c.ridx + 1) % KQLEN } := by
    unfold ctr_step
    rw [if_neg hcond]
  have hdiv := succ_div_of_not_roll hK
  refine ⟨?_, ?_, ?_, ?_, ?_, ?_⟩
  · rw [hstep]
    show c.qidx = (j + 1) / KQLEN % numkq
    rw [hdiv]
    exact hinv.hqidx
  · rw [hstep]
    show (c.ridx + 1) % KQLEN = (j + 1) % KQLEN
    rw [hinv.hridx, Nat.mod_add_mod]
  · intro i hi
    rw [hstep]
    exact hinv.hvalid i hi
  · intro i hi
    rw [hstep]
    show toNatBE (c.q i).ctr = _
    rw [hdiv]
    exact hinv.hctr i hi
  · intro r hr
    rw [hstep]
    show (c.q c.qidx).keys.getD r [] = _
    rw [hdiv]
    exact hinv.hkeys r hr
  · intro i hi hne
    rw [hstep] at hne ⊢
    exact hinv.hempty i hi hne

lemma kq_update_ctr (q : kq) (s : Nat) : ({ q with qstate := s } : kq).ctr = q.ctr := rfl

lemma kq_update_keys (q : kq) (s : Nat) : ({ q with qstate := s } : kq).keys = q.keys := rfl

lemma kq_update_qstate (q : kq) (s : Nat) : ({ q with qstate := s } : kq).qstate = s := rfl

lemma inv_step_roll {E : Nat → List Nat} {numkq v j : Nat}
    {c : ssh_aes_ctr_ctx_mt} (h2 : 2 ≤ numkq) (hK : (j + 1) % KQLEN = 0)
    (hinv : CtrInv E numkq v j c) :
    CtrInv E numkq v (j + 1) (ctr_step E numkq c) := by
  have hnum_pos : 0 < numkq := by omega
  have hcond : (c.ridx + 1) % KQLEN = 0 := by
    rw [hinv.hridx, Nat.mod_add_mod]
    exact hK
  have hdiv := succ_div_of_roll hK
  have hqlt : c.qidx < numkq := by
    rw [hinv.hqidx]
    exact Nat.mod_lt _ hnum_pos
  have hqi_ne : (c.qidx + 1) % numkq ≠ c.qidx := by
    rw [hinv.hqidx]
    exact succ_mod_ne h2 (Nat.mod_lt _ hnum_pos)
  have hqi_lt : (c.qidx + 1) % numkq < numkq := Nat.mod_lt _ hnum_pos
  have hempty_qi : (c.q ((c.qidx + 1) % numkq)).qstate = KQEMPTY :=
    hinv.hempty _ hqi_lt hqi_ne
  have hnotfull : ¬ ((c.q ((c.qidx + 1) % numkq)).qstate = KQFULL) := by
    rw [hempty_qi]
    decide
  have hstep : ctr_step E numkq c = { c with
      ridx := 0
      qidx := (c.qidx + 1) % numkq
      q := fun i =>
        if i = c.qidx then { c.q c.qidx with qstate := KQEMPTY }
        else if i = (c.qidx + 1) % numkq then
          { fill_queue E numkq (c.q ((c.qidx + 1) % numkq)) with qstate := KQDRAINING }
        else c.q i } := by
    unfold ctr_step
    rw [if_pos hcond]
    simp only [if_neg hnotfull]
  have hq_new : ∀ i, (ctr_step E numkq c).q i =
      if i = c.qidx then { c.q c.qidx with qstate := KQEMPTY }
      else if i = (c.qidx + 1) % numkq then
        { fill_queue E numkq (c.q ((c.qidx + 1) % numkq)) with qstate := KQDRAINING }
      else c.q i := by
    intro i
    rw [hstep]
  have hqidx_new : (ctr_step E numkq c).qidx = (c.qidx + 1) % numkq := by
    rw [hstep]
  have hridx_new : (ctr_step E numkq c).ridx = 0 := by
    rw [hstep]
  have hqi_j : (c.qidx + 1) % numkq = (j / KQLEN + 1) % numkq := by
    rw [hinv.hqidx, Nat.mod_add_mod]
  have hvq := (hinv.hvalid _ hqi_lt).1
  have hlq := (hinv.hvalid _ hqi_lt).2
  refine ⟨?_, ?_, ?_, ?_, ?_, ?_⟩
  · rw [hqidx_new, hqi_j, hdiv]
  · rw [hridx_new, hK]
  · intro i hi
    rw [hq_new i]
    by_cases hic : i = c.qidx
    · rw [if_pos hic, kq_update_ctr]
      exact hinv.hvalid c.qidx hqlt
    · by_cases hin : i = (c.qidx + 1) % numkq
      · rw [if_neg hic, if_pos hin, kq_update_ctr]
        exact fill_queue_valid E hvq hlq
      · rw [if_neg hic, if_neg hin]
        exact hinv.hvalid i hi
  · intro i hi
    rw [hq_new i]
    by_cases hic : i = c.qidx
    · rw [if_pos hic, kq_update_ctr, hic]
      rw [hinv.hctr c.qidx hqlt, hdiv, hinv.hqidx, dist_self, dist_old h2]
      have harith : j / KQLEN + 1 + (numkq - 1) = j / KQLEN + numkq := by omega
      rw [harith]
    · by_cases hin : i = (c.qidx + 1) % numkq
      · rw [if_neg hic, if_pos hin, kq_update_ctr, hin]
        rw [fill_queue_ctr E hvq hlq (by omega), hinv.hctr _ hqi_lt, hdiv]
        rw [hinv.hqidx, dist_next h2]
        have hds : dist (j / KQLEN + 1) numkq ((j / KQLEN % numkq + 1) % numkq) = numkq := by
          have hx : (j / KQLEN % numkq + 1) % numkq = (j / KQLEN + 1) % numkq :=
            Nat.mod_add_mod _ _ _
          rw [hx]
          exact dist_self
        rw [hds, Nat.mod_add_mod]
        have harith : v + KQLEN * (j / KQLEN + 1) + numkq * KQLEN =
            v + KQLEN * (j / KQLEN + 1 + numkq) := by
          simp only [KQLEN]
          omega
        rw [harith]
      · rw [if_neg hic, if_neg hin]
        rw [hinv.hctr i hi, hdiv]
        have hne : i ≠ j / KQLEN % numkq := by
          rw [← hinv.hqidx]
          exact hic
        have hne2 : i ≠ (j / KQLEN % numkq + 1) % numkq := by
          have hx : (j / KQLEN % numkq + 1) % numkq = (c.qidx + 1) % numkq := by
            rw [hinv.hqidx]
          rw [hx]
          exact hin
        rw [dist_other h2 hi hne hne2]
        have harith : j / KQLEN + (dist (j / KQLEN + 1) numkq i + 1) =
            j / KQLEN + 1 + dist (j / KQLEN + 1) numkq i := by omega
        rw [harith]
  · intro r hr
    rw [hqidx_new, hq_new, if_neg hqi_ne, if_pos rfl, kq_update_keys]
    rw [fill_queue_keys E hvq hlq r hr, hinv.hctr _ hqi_lt]
    rw [hinv.hqidx, dist_next h2, hdiv, Nat.mod_add_mod]
  · intro i hi hne_new
    rw [hqidx_new] at hne_new
    rw [hq_new i]
    by_cases hic : i = c.qidx
    · rw [if_pos hic, kq_update_qstate]
    · rw [if_neg hic, if_neg hne_new]
      exact hinv.hempty i hi hic

lemma fill_queue_first_ctr (E : Nat → List Nat) (n : Nat) (q : kq) :
    (fill_queue_first E n q).ctr = (fill_queue E n q).ctr :=
  kq_update_ctr (fill_queue E n q) KQDRAINING

lemma fill_queue_first_keys (E : Nat → List Nat) (n : Nat) (q : kq) :
    (fill_queue_first E n q).keys = (fill_queue E n q).keys :=
  kq_update_keys (fill_queue E n q) KQDRAINING

lemma init_inv (E : Nat → List Nat) {numkq : Nat} {iv : List Nat}
    (h2 : 2 ≤ numkq) (hv : validBytes iv) (hl : iv.length = 16)
    (b : ssh_aes_ctr_ctx_mt) :
    CtrInv E numkq (toNatBE iv) 0
      (start_threads E numkq (seed_queues { b with aes_counter := iv } numkq)) := by
  have hsq0 : (seed_queues { b with aes_counter := iv } numkq).q 0 =
      { b.q 0 with ctr := iv, qstate := KQINIT } := rfl
  have hsqi : ∀ i, i ≠ 0 → i < numkq →
      (seed_queues { b with aes_counter := iv } numkq).q i =
      { b.q i with ctr := ssh_ctr_add iv (i * KQLEN), qstate := KQEMPTY } := by
    intro i hi0 hilt
    show (if i = 0 then _ else if i < numkq then _ else _) = _
    rw [if_neg hi0, if_pos hilt]
  have hc0q : ∀ i,
      (start_threads E numkq (seed_queues { b with aes_counter := iv } numkq)).q i =
      if i = 0 then fill_queue_first E numkq { b.q 0 with ctr := iv, qstate := KQINIT }
      else (seed_queues { b with aes_counter := iv } numkq).q i := by
    intro i
    show (if i = 0 then
        fill_queue_first E numkq ((seed_queues { b with aes_counter := iv } numkq).q 0)
      else (seed_queues { b with aes_counter := iv } numkq).q i) = _
    rw [hsq0]
  have hqidx0 :
      (start_threads E numkq (seed_queues { b with aes_counter := iv } numkq)).qidx = 0 := rfl
  have h16 : (256 : Nat) ^ 16 = 2 ^ 128 := by norm_num
  refine ⟨?_, ?_, ?_, ?_, ?_, ?_⟩
  · rw [hqidx0, Nat.zero_div, Nat.zero_mod]
  · show (0 : Nat) = 0 % KQLEN
    rw [Nat.zero_mod]
  · intro i hi
    rw [hc0q i]
    by_cases hi0 : i = 0
    · rw [if_pos hi0, fill_queue_first_ctr]
      exact fill_queue_valid E hv hl
    · rw [if_neg hi0, hsqi i hi0 hi]
      constructor
      · exact ssh_ctr_add_valid hv _
      · show (ssh_ctr_add iv (i * KQLEN)).length = 16
        rw [ssh_ctr_add_length, hl]
  · intro i hi
    rw [hc0q i, Nat.zero_div]
    by_cases hi0 : i = 0
    · rw [if_pos hi0, hi0, fill_queue_first_ctr]
      rw [fill_queue_ctr E hv hl (by omega)]
      show (toNatBE iv + numkq * KQLEN) % 2 ^ 128 = _
      have hd0 : dist 0 numkq 0 = numkq := by
        unfold dist
        rw [Nat.zero_mod, if_pos rfl]
      rw [hd0, Nat.zero_add, Nat.mul_comm KQLEN numkq]
    · rw [if_neg hi0, hsqi i hi0 hi]
      show toNatBE (ssh_ctr_add iv (i * KQLEN)) = _
      rw [ssh_ctr_add_val hv, hl, h16]
      have hdi : dist 0 numkq i = i := by
        unfold dist
        rw [Nat.zero_mod, if_neg hi0, Nat.sub_zero, Nat.add_mod_left, Nat.mod_eq_of_lt hi]
      rw [hdi, Nat.zero_add, Nat.mul_comm KQLEN i]
  · intro r hr
    rw [hqidx0, hc0q 0, if_pos rfl, fill_queue_first_keys]
    rw [fill_queue_keys E hv hl r hr]
    show E ((toNatBE iv + r) % 2 ^ 128) = _
    rw [Nat.zero_div, Nat.mul_zero, Nat.add_zero]
  · intro i hi hne
    rw [hqidx0] at hne
    rw [hc0q i, if_neg hne, hsqi i hne hi]

lemma ssh_aes_ctr_serial {E : Nat → List Nat} {numkq v : Nat} (h2 : 2 ≤ numkq) :
    ∀ (srcs : List (List Nat)) (j : Nat) (c : ssh_aes_ctr_ctx_mt),
      CtrInv E numkq v j c →
      (ssh_aes_ctr E numkq c srcs).1 = serial_ctr_ref E (v + j) srcs := by
  intro srcs
  induction srcs with
  | nil =>
    intro j c _
    rfl
  | cons s rest ih =>
    intro j c hinv
    show List.zipWith Nat.xor s (keystream_block c) ::
        (ssh_aes_ctr E numkq (ctr_step E numkq c) rest).1 =
      List.zipWith Nat.xor s (E ((v + j) % 2 ^ 128)) :: serial_ctr_ref E (v + j + 1) rest
    rw [keystream_block_inv hinv]
    congr 1
    by_cases hroll : (j + 1) % KQLEN = 0
    · have hrec := ih (j + 1) (ctr_step E numkq c) (inv_step_roll h2 hroll hinv)
      rw [hrec, Nat.add_assoc]
    · have hrec := ih (j + 1) (ctr_step E numkq c) (inv_step_noroll hroll hinv)
      rw [hrec, Nat.add_assoc]

/-- C1: for every key (abstracted as the block function E), every 16-byte
IV and every message that is a list of 16-byte blocks, the output of the
parallel engine transform ssh_aes_ctr — consuming the keystream blocks that
the thread_loop fill passes produce, in rotation order from the freshly
seeded and started ring — is byte for byte the reference single-threaded
CTR encryption: block i is XORed with AES_encrypt(key, IV + i), the IV
taken as a 16-byte big-endian counter, with no block reordered, skipped or
duplicated. -/
theorem ssh_aes_ctr_matches_serial (E : Nat → List Nat) (numkq : Nat)
    (b : ssh_aes_ctr_ctx_mt) (iv : List Nat) (srcs : List (List Nat))
    (h2 : 2 ≤ numkq) (h24 : numkq ≤ MAX_NUMKQ) (hv : validBytes iv)
    (hl : iv.length = 16) :
    (ssh_aes_ctr E numkq
        (start_threads E numkq (seed_queues { b with aes_counter := iv } numkq)) srcs).1 =
      serial_ctr_ref E (toNatBE iv) srcs := by
  have hmain := @ssh_aes_ctr_serial E numkq (toNatBE iv) h2 srcs 0 _ (init_inv E h2 hv hl b)
  simpa using hmain

theorem ssh_aes_ctr_matches_serial_witness :
    (ssh_aes_ctr (fun n => List.replicate 16 (n % 256)) 8
        (start_threads (fun n => List.replicate 16 (n % 256)) 8
          (seed_queues
            { (⟨0, 0, 0, 0, 0, [], [], [], false, fun _ => ⟨[], [], 0⟩⟩ :
                ssh_aes_ctr_ctx_mt) with
              aes_counter := List.replicate 16 0 } 8))
        [List.replicate 16 7]).1 =
      serial_ctr_ref (fun n => List.replicate 16 (n % 256))
        (toNatBE (List.replicate 16 0)) [List.replicate 16 7] :=
  ssh_aes_ctr_matches_serial (fun n => List.replicate 16 (n % 256)) 8
    ⟨0, 0, 0, 0, 0, [], [], [], false, fun _ => ⟨[], [], 0⟩⟩
    (List.replicate 16 0) [List.replicate 16 7]
    (by decide) (by decide) (by decide) (by decide)

end CipherCtrMt
